import Mathlib

/-!
Verification of the geohash reference implementation (geohash.py).

The source is shallowly embedded over the rationals: the Python floats
appearing in the algorithm are dyadic rationals obtained from integer
interval bounds by repeated halving, so for the string lengths the claims
range over, exact rational arithmetic coincides with the double arithmetic
of the source.  Fallible operations (dictionary lookup in CHARMAP, and the
decode wrapper that swallows every failure) are modelled with Option.
The call int(-math.log10 y) of the source is modelled exactly over the
rationals by truncNegLog10 below, built on Int.log, the Mathlib floor of
the base-10 logarithm.
-/

namespace Geohash

/-- BASE32 of the source: the 32 symbols, digits 0-9 and b-z without a, i, l, o. -/
def BASE32 : List Char :=
  ['0','1','2','3','4','5','6','7','8','9','b','c','d','e','f','g','h','j','k',
   'm','n','p','q','r','s','t','u','v','w','x','y','z']

/-- Helper for CHARMAP: position of a character in a list, counting from i. -/
def lookupIdx : List Char → Char → ℕ → Option ℕ
  | [], _, _ => none
  | x :: xs, c, i => if x = c then some i else lookupIdx xs c (i + 1)

/-- CHARMAP of the source: the dictionary mapping each BASE32 symbol to its
index; a missing key (the Python KeyError) is the value none. -/
def CHARMAP (c : Char) : Option ℕ := lookupIdx BASE32 c 0

/-- Option-valued traversal of a list, stopping at the first failure; this is
how the per-character Python loops that may raise propagate failure. -/
def mapOpt (f : α → Option β) : List α → Option (List β)
  | [] => some []
  | x :: xs =>
    match f x with
    | none => none
    | some y => (mapOpt f xs).map (fun ys => y :: ys)

/-- The value of a bit string read most significant bit first, as by the
Python int(bits, 2). -/
def bits2num (bs : List Bool) : ℕ := bs.foldl (fun n b => 2 * n + b.toNat) 0

/-- The five bits of the format string "{0:05b}" applied to d, most
significant first. -/
def charBits (d : ℕ) : List Bool :=
  [d.testBit 4, d.testBit 3, d.testBit 2, d.testBit 1, d.testBit 0]

/-- The function _char2bits of the source: convert char c from base32 to a
5-bit string; fails (KeyError) outside the alphabet. -/
def _char2bits (c : Char) : Option (List Bool) := (CHARMAP c).map charBits

/-- The function _geohash2bits of the source: decode from base32 using
CHARMAP and concatenate the 5-bit groups. -/
def _geohash2bits (s : String) : Option (List Bool) :=
  (mapOpt _char2bits s.data).map List.flatten

/-- One step of the interval narrowing loop in _bits2coordinate: halve the
interval, keeping the upper half on bit 1 and the lower half on bit 0. -/
def nstep (p : ℚ × ℚ) (b : Bool) : ℚ × ℚ :=
  let mid := (p.1 + p.2) / 2
  if b then (mid, p.2) else (p.1, mid)

/-- The loop of _bits2coordinate: narrow the interval once per bit. -/
def nrun (bits : List Bool) (p : ℚ × ℚ) : ℚ × ℚ := bits.foldl nstep p

/-- The function _bits2coordinate of the source: decode bits into a
coordinate value (final midpoint) and an error (final half width). -/
def _bits2coordinate (bits : List Bool) (lo hi : ℚ) : ℚ × ℚ :=
  let p := nrun bits (lo, hi)
  ((p.1 + p.2) / 2, (p.2 - p.1) / 2)

mutual

/-- Elements of a list at even positions 0, 2, 4, ...; this is the Python
itertools.islice(bits, 0, None, 2). -/
def evens : List Bool → List Bool
  | [] => []
  | x :: rest => x :: odds rest

/-- Elements of a list at odd positions 1, 3, 5, ...; this is the Python
itertools.islice(bits, 1, None, 2). -/
def odds : List Bool → List Bool
  | [] => []
  | _ :: rest => evens rest

end

/-- The function _decode_val_err of the source: split the bit string into the
latitude bits (odd positions) and longitude bits (even positions) and narrow
each axis independently, returning (lat value, lng value, lat error,
lng error); fails on a character outside the alphabet. -/
def _decode_val_err (s : String) : Option (ℚ × ℚ × ℚ × ℚ) :=
  (_geohash2bits s).map fun bits =>
    let lat := _bits2coordinate (odds bits) (-90) 90
    let lng := _bits2coordinate (evens bits) (-180) 180
    (lat.1, lng.1, lat.2, lng.2)

/-- The mask list [16, 8, 4, 2, 1] of the source. -/
def masks : List ℕ := [16, 8, 4, 2, 1]

/-- State of the fast decode loop of the source: the two interval bounds per
axis and the flag is_lng selecting the axis of the next bit. -/
structure DState where
  lat_lo : ℚ
  lat_hi : ℚ
  lng_lo : ℚ
  lng_hi : ℚ
  is_lng : Bool

/-- Body of the inner mask loop of decode_val_err: update the axis selected
by is_lng according to the bit d AND mask, then flip is_lng. -/
def dmask_step (d : ℕ) (st : DState) (mask : ℕ) : DState :=
  if st.is_lng then
    let mid := (st.lng_lo + st.lng_hi) / 2
    if d &&& mask ≠ 0 then { st with lng_lo := mid, is_lng := false }
    else { st with lng_hi := mid, is_lng := false }
  else
    let mid := (st.lat_lo + st.lat_hi) / 2
    if d &&& mask ≠ 0 then { st with lat_lo := mid, is_lng := true }
    else { st with lat_hi := mid, is_lng := true }

/-- Processing of one character in decode_val_err: run the five masks. -/
def dchar_step (st : DState) (d : ℕ) : DState := masks.foldl (dmask_step d) st

/-- The mask test of dmask_step expressed on an already extracted bit;
dmask_step d st mask equals dbit_step st applied to the tested bit. -/
def dbit_step (st : DState) (b : Bool) : DState :=
  if st.is_lng then
    let mid := (st.lng_lo + st.lng_hi) / 2
    if b then { st with lng_lo := mid, is_lng := false }
    else { st with lng_hi := mid, is_lng := false }
  else
    let mid := (st.lat_lo + st.lat_hi) / 2
    if b then { st with lat_lo := mid, is_lng := true }
    else { st with lat_hi := mid, is_lng := true }

/-- The function decode_val_err of the source (the fast, bit-operation
path): look every character up in CHARMAP, then run the interleaved
narrowing loop, returning (lat value, lng value, lat error, lng error). -/
def decode_val_err (s : String) : Option (ℚ × ℚ × ℚ × ℚ) :=
  (mapOpt CHARMAP s.data).map fun ds =>
    let st := ds.foldl dchar_step ⟨-90, 90, -180, 180, true⟩
    ((st.lat_lo + st.lat_hi) / 2, (st.lng_lo + st.lng_hi) / 2,
     (st.lat_hi - st.lat_lo) / 2, (st.lng_hi - st.lng_lo) / 2)

/-- Exact model of the Python int(-math.log10 y) for y > 0: truncation toward
zero of the negated base-10 logarithm.  For y at least 1 the negated
logarithm is nonpositive and truncation gives the negated floor of log10 y;
for y below 1 it is positive and truncation gives the floor of log10 of the
inverse. -/
def truncNegLog10 (y : ℚ) : ℤ :=
  if 1 ≤ y then -(Int.log 10 y) else Int.log 10 y⁻¹

/-- The function _get_precision of the source: the number of significant
digits after the decimal mark, max(0, int(-math.log10(2 * err)) + 1). -/
def _get_precision (err : ℚ) : ℤ := max 0 (truncNegLog10 (2 * err) + 1)

/-- Definition following the words of the spec, for comparison with the
source function _get_precision: max(0, floor(-log10(2 * err)) + 1).  The
floor of -log10 y is the negated ceiling of log10 y, that is the negated
Int.clog. -/
def precision_spec_floor (err : ℚ) : ℤ := max 0 (-(Int.clog 10 (2 * err)) + 1)

/-- Decimal digit character for d below 10. -/
def digitChar (d : ℕ) : Char := Char.ofNat (48 + d)

/-- Decimal digits of n, most significant first, with explicit fuel (any
fuel at least the digit count of n gives the digits; fuel n suffices). -/
def natDigitsAux : ℕ → ℕ → List Char
  | 0, _ => []
  | _ + 1, 0 => []
  | fuel + 1, n + 1 => natDigitsAux fuel ((n + 1) / 10) ++ [digitChar ((n + 1) % 10)]

/-- Decimal rendering of a natural number. -/
def natToString (n : ℕ) : String := if n = 0 then "0" else String.mk (natDigitsAux n n)

/-- Rounding to the nearest integer, ties to even, as performed by the C
printf family underlying the Python format "%.*f" on the exact value of a
double. -/
def roundHalfEven (x : ℚ) : ℤ :=
  let f := ⌊x⌋
  let r := x - f
  if r < 1/2 then f
  else if 1/2 < r then f + 1
  else if 2 ∣ f then f else f + 1

/-- Left padding with zero digits up to length p. -/
def padLeftZeros (s : List Char) (p : ℕ) : List Char :=
  List.replicate (p - s.length) '0' ++ s

/-- Model of the Python "%.*f" % (p, v) for an exactly representable v:
round v to p decimal places (ties to even) and render with exactly p digits
after the decimal mark, no mark when p = 0. -/
def formatFixed (p : ℕ) (v : ℚ) : String :=
  let n := roundHalfEven (v * 10 ^ p)
  let sign := if n < 0 then "-" else ""
  let a := n.natAbs
  if p = 0 then sign ++ natToString a
  else
    sign ++ natToString (a / 10 ^ p) ++ "." ++
      String.mk (padLeftZeros (natDigitsAux (a % 10 ^ p) (a % 10 ^ p)) p)

/-- The function decode of the source: decode to coordinate strings rounded
to the shared precision derived from the longitude error; any failure inside
(the bare except of the source) yields no value, modelled as none. -/
def decode (s : String) : Option (String × String) :=
  (decode_val_err s).map fun r =>
    let p := (_get_precision r.2.2.2).toNat
    (formatFixed p r.1, formatFixed p r.2.1)

/-- The function _coordinate2bits of the source: encode one coordinate into
a bit string of the desired length, emitting 1 and keeping the upper half
when val is strictly greater than the midpoint, else emitting 0 and keeping
the lower half. -/
def _coordinate2bits (val : ℚ) : ℚ → ℚ → ℕ → List Bool
  | _, _, 0 => []
  | lo, hi, n + 1 =>
    let mid := (lo + hi) / 2
    if val > mid then true :: _coordinate2bits val mid hi n
    else false :: _coordinate2bits val lo mid n

/-- The Python itertools.zip_longest interleaving flattened with the empty
fill value dropped: alternate elements of the two lists, first list first,
appending the tail of the longer list. -/
def interleave : List Bool → List Bool → List Bool
  | [], ys => ys
  | x :: xs, ys => x :: interleave ys xs
termination_by xs ys => xs.length + ys.length
decreasing_by simp; omega

/-- Grouping of a bit string into consecutive groups of five, as by the
slicing loop of _encode. -/
def group5 (l : List Bool) : List (List Bool) :=
  match l with
  | [] => []
  | x :: xs => (x :: xs.take 4) :: group5 (xs.drop 4)
termination_by l.length
decreasing_by simp; omega

/-- The base32 packing of _encode: each 5-bit group becomes the BASE32
symbol at the index given by its value. -/
def pack (bs : List Bool) : List Char :=
  (group5 bs).map fun g => BASE32.getD (bits2num g) '?'

/-- The function _encode of the source: latitude gets length * 5 / 2 bits,
longitude gets (length * 5 + 1) / 2 bits, the two streams are interleaved
longitude first and packed into base32. -/
def _encode (lat_val lng_val : ℚ) (length : ℕ) : String :=
  let lat_bits := _coordinate2bits lat_val (-90) 90 (length * 5 / 2)
  let lng_bits := _coordinate2bits lng_val (-180) 180 ((length * 5 + 1) / 2)
  String.mk (pack (interleave lng_bits lat_bits))

/-- The while loop of the fast encode of the source: state is the two
intervals, the axis flag is_lng, the partial character value d, the bit
counter bit, and the output hashstr; the loop runs while the output is
shorter than the requested length. -/
def encode_go (lat_val lng_val : ℚ) (length : ℕ) :
    ℚ → ℚ → ℚ → ℚ → Bool → ℕ → ℕ → List Char → List Char :=
  fun lat_lo lat_hi lng_lo lng_hi is_lng d bit out =>
  if h : out.length < length then
    let next :=
      if is_lng then
        let mid := (lng_lo + lng_hi) / 2
        if lng_val > mid then (d ||| masks.getD bit 0, lat_lo, lat_hi, mid, lng_hi)
        else (d, lat_lo, lat_hi, lng_lo, mid)
      else
        let mid := (lat_lo + lat_hi) / 2
        if lat_val > mid then (d ||| masks.getD bit 0, mid, lat_hi, lng_lo, lng_hi)
        else (d, lat_lo, mid, lng_lo, lng_hi)
    if bit < 4 then
      encode_go lat_val lng_val length next.2.1 next.2.2.1 next.2.2.2.1 next.2.2.2.2
        (!is_lng) next.1 (bit + 1) out
    else
      encode_go lat_val lng_val length next.2.1 next.2.2.1 next.2.2.2.1 next.2.2.2.2
        (!is_lng) 0 0 (out ++ [BASE32.getD next.1 '?'])
  else out
termination_by lat_lo lat_hi lng_lo lng_hi is_lng d bit out => (length - out.length, 4 - bit)
decreasing_by
  · apply Prod.Lex.right
    omega
  · apply Prod.Lex.left
    simp
    omega

/-- The function encode of the source (the fast, bit-operation path). -/
def encode (lat_val lng_val : ℚ) (length : ℕ) : String :=
  String.mk (encode_go lat_val lng_val length (-90) 90 (-180) 180 true 0 0 [])

/-- One iteration of the fast encode loop without the packing bookkeeping:
the emitted bit and the updated intervals, for the axis selected by is_lng. -/
def estep (lat_val lng_val la lb lc ld : ℚ) (e : Bool) : Bool × ℚ × ℚ × ℚ × ℚ :=
  if e then
    let mid := (lc + ld) / 2
    if lng_val > mid then (true, la, lb, mid, ld) else (false, la, lb, lc, mid)
  else
    let mid := (la + lb) / 2
    if lat_val > mid then (true, mid, lb, lc, ld) else (false, la, mid, lc, ld)

/-- Pure bit stream of the fast encode loop: the sequence of bits the loop
generates, one per iteration, the axis alternating from is_lng. -/
def genBits (lat_val lng_val : ℚ) : ℕ → ℚ → ℚ → ℚ → ℚ → Bool → List Bool
  | 0, _, _, _, _, _ => []
  | n + 1, la, lb, lc, ld, e =>
    let s := estep lat_val lng_val la lb lc ld e
    s.1 :: genBits lat_val lng_val n s.2.1 s.2.2.1 s.2.2.2.1 s.2.2.2.2 (!e)

/-- Packing bookkeeping of the fast encode loop in isolation: consume a bit
stream, accumulating the partial character d from the mask at index bit and
emitting a symbol every five bits. -/
def packFrom : ℕ → ℕ → List Bool → List Char
  | _, _, [] => []
  | d, bit, b :: bs =>
    let d' := if b then d ||| masks.getD bit 0 else d
    if bit < 4 then packFrom d' (bit + 1) bs
    else BASE32.getD d' '?' :: packFrom 0 0 bs

/-! ### Basic lemmas about the lookup, traversal and splitting helpers -/

theorem lookupIdx_eq_none {l : List Char} {c : Char} (h : c ∉ l) :
    ∀ i, lookupIdx l c i = none := by
  induction l with
  | nil => intro i; rfl
  | cons x xs ih =>
    intro i
    simp only [List.mem_cons, not_or] at h
    have hxc : ¬ x = c := fun hx => h.1 hx.symm
    simp only [lookupIdx, if_neg hxc]
    exact ih h.2 (i + 1)

theorem CHARMAP_eq_none {c : Char} (h : c ∉ BASE32) : CHARMAP c = none :=
  lookupIdx_eq_none h 0

theorem lookupIdx_lt {l : List Char} {c : Char} :
    ∀ {i j}, lookupIdx l c i = some j → j < i + l.length := by
  induction l with
  | nil => intro i j h; exact absurd h (by simp [lookupIdx])
  | cons x xs ih =>
    intro i j h
    simp only [lookupIdx] at h
    by_cases hx : x = c
    · rw [if_pos hx] at h
      cases h
      simp
    · rw [if_neg hx] at h
      have := ih h
      simp only [List.length_cons]
      omega

theorem CHARMAP_lt {c : Char} {d : ℕ} (h : CHARMAP c = some d) : d < 32 := by
  have := lookupIdx_lt h
  simpa [BASE32] using this

@[simp] theorem mapOpt_nil (f : α → Option β) : mapOpt f [] = some [] := rfl

theorem mapOpt_cons (f : α → Option β) (x : α) (xs : List α) :
    mapOpt f (x :: xs) =
      match f x with
      | none => none
      | some y => (mapOpt f xs).map (fun ys => y :: ys) := rfl

theorem mapOpt_eq_none_of_mem {f : α → Option β} {l : List α} {x : α}
    (hx : x ∈ l) (hf : f x = none) : mapOpt f l = none := by
  induction l with
  | nil => cases hx
  | cons a as ih =>
    rcases List.mem_cons.mp hx with h | h
    · subst h
      simp [mapOpt_cons, hf]
    · rw [mapOpt_cons]
      cases hfa : f a with
      | none => rfl
      | some y => rw [ih h]; rfl

theorem mapOpt_mem {f : α → Option β} {l : List α} {ys : List β}
    (h : mapOpt f l = some ys) : ∀ y ∈ ys, ∃ x, f x = some y := by
  induction l generalizing ys with
  | nil =>
    cases h
    intro y hy
    cases hy
  | cons a as ih =>
    rw [mapOpt_cons] at h
    cases hfa : f a with
    | none => rw [hfa] at h; cases h
    | some b =>
      rw [hfa] at h
      cases hrest : mapOpt f as with
      | none => rw [hrest] at h; cases h
      | some bs =>
        rw [hrest] at h
        simp only [Option.map_some'] at h
        cases h
        intro y hy
        rcases List.mem_cons.mp hy with h | h
        · exact ⟨a, h ▸ hfa⟩
        · exact ih hrest y h

theorem mapOpt_comp_map (f : α → Option β) (g : β → γ) (l : List α) :
    mapOpt (fun c => (f c).map g) l = (mapOpt f l).map (List.map g) := by
  induction l with
  | nil => rfl
  | cons a as ih =>
    rw [mapOpt_cons, mapOpt_cons]
    cases hfa : f a with
    | none => rfl
    | some b =>
      simp only [Option.map_some, ih]
      cases mapOpt f as <;> rfl

theorem mapOpt_of_forall {f : α → Option β} {g : α → β} {l : List α}
    (h : ∀ x ∈ l, f x = some (g x)) : mapOpt f l = some (l.map g) := by
  induction l with
  | nil => rfl
  | cons a as ih =>
    rw [mapOpt_cons, h a (List.mem_cons_self a as),
      ih (fun x hx => h x (List.mem_cons_of_mem a hx))]
    rfl

@[simp] theorem evens_nil : evens [] = [] := rfl

@[simp] theorem odds_nil : odds [] = [] := rfl

@[simp] theorem evens_cons (x : Bool) (l : List Bool) : evens (x :: l) = x :: odds l := rfl

@[simp] theorem odds_cons (x : Bool) (l : List Bool) : odds (x :: l) = evens l := rfl

theorem length_evens_odds : ∀ l : List Bool,
    (evens l).length = (l.length + 1) / 2 ∧ (odds l).length = l.length / 2 := by
  intro l
  induction l with
  | nil => simp
  | cons x rest ih =>
    constructor
    · simp only [evens_cons, List.length_cons, ih.2]
      omega
    · simp only [odds_cons, List.length_cons, ih.1]

/-! ### Lemmas about the interval narrowing engine -/

@[simp] theorem nrun_nil (p : ℚ × ℚ) : nrun [] p = p := rfl

theorem nrun_cons (b : Bool) (bs : List Bool) (p : ℚ × ℚ) :
    nrun (b :: bs) p = nrun bs (nstep p b) := rfl

theorem nrun_append (bs cs : List Bool) (p : ℚ × ℚ) :
    nrun (bs ++ cs) p = nrun cs (nrun bs p) := by
  simp [nrun, List.foldl_append]

/-- After consuming the bits, the interval width is the initial width divided
by two to the number of bits. -/
theorem nrun_width : ∀ (bs : List Bool) (lo hi : ℚ),
    (nrun bs (lo, hi)).2 - (nrun bs (lo, hi)).1 = (hi - lo) / 2 ^ bs.length := by
  intro bs
  induction bs with
  | nil => intro lo hi; simp
  | cons b rest ih =>
    intro lo hi
    rw [nrun_cons]
    cases b with
    | false =>
      rw [show nstep (lo, hi) false = (lo, (lo + hi) / 2) from rfl, ih]
      rw [List.length_cons, pow_succ]
      ring
    | true =>
      rw [show nstep (lo, hi) true = ((lo + hi) / 2, hi) from rfl, ih]
      rw [List.length_cons, pow_succ]
      ring

/-- The lower bound never decreases and the upper bound never increases. -/
theorem nrun_nested : ∀ (bs : List Bool) (lo hi : ℚ), lo ≤ hi →
    lo ≤ (nrun bs (lo, hi)).1 ∧ (nrun bs (lo, hi)).1 ≤ (nrun bs (lo, hi)).2 ∧
      (nrun bs (lo, hi)).2 ≤ hi := by
  intro bs
  induction bs with
  | nil => intro lo hi h; simpa using h
  | cons b rest ih =>
    intro lo hi h
    rw [nrun_cons]
    cases b with
    | false =>
      rw [show nstep (lo, hi) false = (lo, (lo + hi) / 2) from rfl]
      have hmid : lo ≤ (lo + hi) / 2 := by linarith
      have := ih lo ((lo + hi) / 2) hmid
      refine ⟨this.1, this.2.1, le_trans this.2.2 (by linarith)⟩
    | true =>
      rw [show nstep (lo, hi) true = ((lo + hi) / 2, hi) from rfl]
      have hmid : (lo + hi) / 2 ≤ hi := by linarith
      have := ih ((lo + hi) / 2) hi hmid
      refine ⟨le_trans (by linarith) this.1, this.2.1, this.2.2⟩

@[simp] theorem _coordinate2bits_zero (v lo hi : ℚ) : _coordinate2bits v lo hi 0 = [] := rfl

theorem _coordinate2bits_succ (v lo hi : ℚ) (n : ℕ) :
    _coordinate2bits v lo hi (n + 1) =
      if v > (lo + hi) / 2 then true :: _coordinate2bits v ((lo + hi) / 2) hi n
      else false :: _coordinate2bits v lo ((lo + hi) / 2) n := rfl

theorem _coordinate2bits_length (v : ℚ) : ∀ (n : ℕ) (lo hi : ℚ),
    (_coordinate2bits v lo hi n).length = n := by
  intro n
  induction n with
  | zero => intro lo hi; rfl
  | succ n ih =>
    intro lo hi
    rw [_coordinate2bits_succ]
    by_cases h : v > (lo + hi) / 2
    · rw [if_pos h, List.length_cons, ih]
    · rw [if_neg h, List.length_cons, ih]

/-- Narrowing along the bits produced by the encode direction keeps the
encoded value inside the interval. -/
theorem nrun_coordinate2bits (v : ℚ) : ∀ (n : ℕ) (lo hi : ℚ), lo ≤ v → v ≤ hi →
    (nrun (_coordinate2bits v lo hi n) (lo, hi)).1 ≤ v ∧
      v ≤ (nrun (_coordinate2bits v lo hi n) (lo, hi)).2 := by
  intro n
  induction n with
  | zero => intro lo hi h1 h2; simpa using ⟨h1, h2⟩
  | succ n ih =>
    intro lo hi h1 h2
    rw [_coordinate2bits_succ]
    by_cases h : v > (lo + hi) / 2
    · rw [if_pos h, nrun_cons,
        show nstep (lo, hi) true = ((lo + hi) / 2, hi) from rfl]
      exact ih ((lo + hi) / 2) hi (le_of_lt h) h2
    · rw [if_neg h, nrun_cons,
        show nstep (lo, hi) false = (lo, (lo + hi) / 2) from rfl]
      exact ih lo ((lo + hi) / 2) h1 (not_lt.mp h)

/-! ### The fast decode loop coincides with the string-based slow decode -/

theorem dmask_eq_dbit (d m : ℕ) (st : DState) :
    dmask_step d st m = dbit_step st (decide (d &&& m ≠ 0)) := by
  by_cases h : d &&& m ≠ 0 <;>
    cases hst : st.is_lng <;>
      simp [dmask_step, dbit_step, h, hst]

theorem foldl_dmask_eq_foldl_dbit (d : ℕ) : ∀ (ms : List ℕ) (st : DState),
    ms.foldl (dmask_step d) st =
      (ms.map fun m => decide (d &&& m ≠ 0)).foldl dbit_step st := by
  intro ms
  induction ms with
  | nil => intro st; rfl
  | cons m rest ih =>
    intro st
    rw [List.map_cons, List.foldl_cons, List.foldl_cons, dmask_eq_dbit, ih]

theorem mask_bits_eq_charBits :
    ∀ d, d < 32 → (masks.map fun m => decide (d &&& m ≠ 0)) = charBits d := by
  decide

theorem dchar_eq_charBits {d : ℕ} (hd : d < 32) (st : DState) :
    dchar_step st d = (charBits d).foldl dbit_step st := by
  rw [dchar_step, foldl_dmask_eq_foldl_dbit, mask_bits_eq_charBits d hd]

theorem foldl_dchar_eq_flatten : ∀ (ds : List ℕ), (∀ d ∈ ds, d < 32) →
    ∀ st : DState, ds.foldl dchar_step st =
      (List.flatten (ds.map charBits)).foldl dbit_step st := by
  intro ds
  induction ds with
  | nil => intro _ st; rfl
  | cons d rest ih =>
    intro h st
    rw [List.foldl_cons, List.map_cons, List.flatten_cons, List.foldl_append,
      dchar_eq_charBits (h d (List.mem_cons_self d rest)),
      ih (fun x hx => h x (List.mem_cons_of_mem d hx))]

theorem dbit_true_mk (la lb lc ld : ℚ) (b : Bool) :
    dbit_step ⟨la, lb, lc, ld, true⟩ b =
      ⟨la, lb, (nstep (lc, ld) b).1, (nstep (lc, ld) b).2, false⟩ := by
  cases b <;> rfl

theorem dbit_false_mk (la lb lc ld : ℚ) (b : Bool) :
    dbit_step ⟨la, lb, lc, ld, false⟩ b =
      ⟨(nstep (la, lb) b).1, (nstep (la, lb) b).2, lc, ld, true⟩ := by
  cases b <;> rfl

/-- Folding the alternating per-bit step starting on the longitude axis
performs the two independent interval narrowings, the longitude one on the
even bits and the latitude one on the odd bits. -/
theorem dfold_split : ∀ (bits : List Bool) (la lb lc ld : ℚ) (e : Bool),
    ((bits.foldl dbit_step ⟨la, lb, lc, ld, e⟩).lat_lo,
     (bits.foldl dbit_step ⟨la, lb, lc, ld, e⟩).lat_hi,
     (bits.foldl dbit_step ⟨la, lb, lc, ld, e⟩).lng_lo,
     (bits.foldl dbit_step ⟨la, lb, lc, ld, e⟩).lng_hi) =
      if e then
        ((nrun (odds bits) (la, lb)).1, (nrun (odds bits) (la, lb)).2,
         (nrun (evens bits) (lc, ld)).1, (nrun (evens bits) (lc, ld)).2)
      else
        ((nrun (evens bits) (la, lb)).1, (nrun (evens bits) (la, lb)).2,
         (nrun (odds bits) (lc, ld)).1, (nrun (odds bits) (lc, ld)).2) := by
  intro bits
  induction bits with
  | nil => intro la lb lc ld e; cases e <;> simp
  | cons x rest ih =>
    intro la lb lc ld e
    cases e with
    | true =>
      rw [List.foldl_cons, dbit_true_mk, ih, if_neg (by simp)]
      simp only [evens_cons, odds_cons, if_pos]
      rw [nrun_cons]
    | false =>
      rw [List.foldl_cons, dbit_false_mk, ih, if_pos rfl]
      simp [nrun_cons]

/-- The slow string-based decode and the fast bit-operation decode agree on
every input string, including the failure cases. -/
theorem decode_val_err_agrees : ∀ s : String, _decode_val_err s = decode_val_err s := by
  intro s
  rw [_decode_val_err, decode_val_err, _geohash2bits]
  have hcomp : mapOpt _char2bits s.data =
      (mapOpt CHARMAP s.data).map (List.map charBits) := by
    rw [show _char2bits = fun c => (CHARMAP c).map charBits from rfl,
      mapOpt_comp_map]
  rw [hcomp]
  cases hds : mapOpt CHARMAP s.data with
  | none => rfl
  | some ds =>
    simp only [Option.map_some']
    have hlt : ∀ d ∈ ds, d < 32 := by
      intro d hd
      rcases mapOpt_mem hds d hd with ⟨c, hc⟩
      exact CHARMAP_lt hc
    have hfold := foldl_dchar_eq_flatten ds hlt ⟨-90, 90, -180, 180, true⟩
    have hsplit := dfold_split (List.flatten (ds.map charBits)) (-90) 90 (-180) 180 true
    rw [if_pos rfl] at hsplit
    rw [hfold]
    congr 1
    simp only [_bits2coordinate]
    have h1 := congrArg (fun t => t.1) hsplit
    have h2 := congrArg (fun t => t.2.1) hsplit
    have h3 := congrArg (fun t => t.2.2.1) hsplit
    have h4 := congrArg (fun t => t.2.2.2) hsplit
    simp only at h1 h2 h3 h4
    rw [h1, h2, h3, h4]

/-! ### The fast encode loop coincides with the string-based slow encode -/

theorem encode_go_stop {lat lng : ℚ} {L : ℕ} {la lb lc ld : ℚ} {e : Bool}
    {d bit : ℕ} {out : List Char} (h : ¬ out.length < L) :
    encode_go lat lng L la lb lc ld e d bit out = out := by
  rw [encode_go]
  exact dif_neg h

theorem encode_go_step {lat lng : ℚ} {L : ℕ} (la lb lc ld : ℚ) (e : Bool)
    (d bit : ℕ) {out : List Char} (h : out.length < L) :
    encode_go lat lng L la lb lc ld e d bit out =
      (let s := estep lat lng la lb lc ld e
       let d' := if s.1 then d ||| masks.getD bit 0 else d
       if bit < 4 then
         encode_go lat lng L s.2.1 s.2.2.1 s.2.2.2.1 s.2.2.2.2 (!e) d' (bit + 1) out
       else
         encode_go lat lng L s.2.1 s.2.2.1 s.2.2.2.1 s.2.2.2.2 (!e) 0 0
           (out ++ [BASE32.getD d' '?'])) := by
  rw [encode_go, dif_pos h]
  by_cases he : e
  · subst he
    by_cases hc : lng > (lc + ld) / 2 <;> simp [estep, hc]
  · simp only [Bool.not_eq_true] at he
    subst he
    by_cases hc : lat > (la + lb) / 2 <;> simp [estep, hc]

theorem genBits_succ (lat lng : ℚ) (n : ℕ) (la lb lc ld : ℚ) (e : Bool) :
    genBits lat lng (n + 1) la lb lc ld e =
      (estep lat lng la lb lc ld e).1 ::
        genBits lat lng n (estep lat lng la lb lc ld e).2.1
          (estep lat lng la lb lc ld e).2.2.1 (estep lat lng la lb lc ld e).2.2.2.1
          (estep lat lng la lb lc ld e).2.2.2.2 (!e) := rfl

theorem genBits_length (lat lng : ℚ) : ∀ (n : ℕ) (la lb lc ld : ℚ) (e : Bool),
    (genBits lat lng n la lb lc ld e).length = n := by
  intro n
  induction n with
  | zero => intro la lb lc ld e; rfl
  | succ n ih =>
    intro la lb lc ld e
    rw [genBits_succ, List.length_cons, ih]

/-- Unrolling of the fast encode loop: from any loop state the final output
is the current output followed by the packing of the pending bit stream,
whose length is the number of iterations the guard still allows. -/
theorem encode_go_bridge (lat lng : ℚ) (L : ℕ) :
    ∀ (r : ℕ) (la lb lc ld : ℚ) (e : Bool) (d bit : ℕ) (out : List Char),
      bit ≤ 4 → 5 * (L - out.length) - bit = r →
      encode_go lat lng L la lb lc ld e d bit out =
        out ++ packFrom d bit (genBits lat lng r la lb lc ld e) := by
  intro r
  induction r with
  | zero =>
    intro la lb lc ld e d bit out hbit hr
    have hout : ¬ out.length < L := by omega
    rw [encode_go_stop hout]
    simp [packFrom]
  | succ r ih =>
    intro la lb lc ld e d bit out hbit hr
    have hout : out.length < L := by
      by_contra hout
      have : L - out.length = 0 := by omega
      omega
    rw [encode_go_step la lb lc ld e d bit hout, genBits_succ]
    simp only
    by_cases hb : bit < 4
    · rw [if_pos hb]
      rw [ih _ _ _ _ _ _ _ _ (by omega) (by omega)]
      congr 1
      rw [packFrom]
      simp only [if_pos hb]
    · rw [if_neg hb]
      have hbit4 : bit = 4 := by omega
      subst hbit4
      rw [ih _ _ _ _ _ _ _ _ (by omega) (by simp; omega)]
      rw [packFrom]
      simp only [Nat.lt_irrefl, if_neg (by omega : ¬ (4:ℕ) < 4)]
      rw [List.append_assoc]
      simp

/-- The fast encode is the packing of its pure bit stream of length 5 L. -/
theorem encode_eq_packFrom (lat lng : ℚ) (L : ℕ) :
    encode lat lng L =
      String.mk (packFrom 0 0 (genBits lat lng (5 * L) (-90) 90 (-180) 180 true)) := by
  rw [encode, encode_go_bridge lat lng L (5 * L) (-90) 90 (-180) 180 true 0 0 []
    (by omega) (by simp)]
  rfl

theorem bits_accum_eq_bits2num :
    ∀ b0 b1 b2 b3 b4 : Bool,
      (if b4 then
          (if b3 then
              (if b2 then
                  (if b1 then (if b0 then 0 ||| 16 else 0) ||| 8
                    else if b0 then 0 ||| 16 else 0) ||| 4
                else if b1 then (if b0 then 0 ||| 16 else 0) ||| 8
                  else if b0 then 0 ||| 16 else 0) ||| 2
            else if b2 then
                (if b1 then (if b0 then 0 ||| 16 else 0) ||| 8
                  else if b0 then 0 ||| 16 else 0) ||| 4
              else if b1 then (if b0 then 0 ||| 16 else 0) ||| 8
                else if b0 then 0 ||| 16 else 0) ||| 1
        else if b3 then
            (if b2 then
                (if b1 then (if b0 then 0 ||| 16 else 0) ||| 8
                  else if b0 then 0 ||| 16 else 0) ||| 4
              else if b1 then (if b0 then 0 ||| 16 else 0) ||| 8
                else if b0 then 0 ||| 16 else 0) ||| 2
          else if b2 then
              (if b1 then (if b0 then 0 ||| 16 else 0) ||| 8
                else if b0 then 0 ||| 16 else 0) ||| 4
            else if b1 then (if b0 then 0 ||| 16 else 0) ||| 8
              else if b0 then 0 ||| 16 else 0) = bits2num [b0, b1, b2, b3, b4] := by
  decide

theorem packFrom_five (b0 b1 b2 b3 b4 : Bool) (bs : List Bool) :
    packFrom 0 0 (b0 :: b1 :: b2 :: b3 :: b4 :: bs) =
      BASE32.getD (bits2num [b0, b1, b2, b3, b4]) '?' :: packFrom 0 0 bs := by
  simp only [packFrom, masks, List.getD]
  norm_num
  rw [← bits_accum_eq_bits2num b0 b1 b2 b3 b4]
  rcases b0 <;> rcases b1 <;> rcases b2 <;> rcases b3 <;> rcases b4 <;> simp

theorem group5_cons5 (b0 b1 b2 b3 b4 : Bool) (bs : List Bool) :
    group5 (b0 :: b1 :: b2 :: b3 :: b4 :: bs) = [b0, b1, b2, b3, b4] :: group5 bs := by
  rw [group5]
  simp

theorem packFrom_eq_pack : ∀ (k : ℕ) (bs : List Bool), bs.length = 5 * k →
    packFrom 0 0 bs = pack bs := by
  intro k
  induction k with
  | zero =>
    intro bs h
    have : bs = [] := List.length_eq_zero.mp (by omega)
    subst this
    simp [pack, packFrom, group5]
  | succ k ih =>
    intro bs h
    match bs, h with
    | b0 :: b1 :: b2 :: b3 :: b4 :: rest, h =>
      have hrest : rest.length = 5 * k := by
        simp only [List.length_cons] at h
        omega
      rw [packFrom_five, pack, group5_cons5, List.map_cons, ← pack, ih rest hrest]

/-- The alternating bit stream of the fast encode is the interleaving of the
two per-axis bit streams of the slow encode, when the stream of the starting
axis is the one holding the extra bit of an odd split. -/
theorem genBits_interleave (lat lng : ℚ) :
    ∀ (n a b : ℕ), a + b = n → b ≤ a → a ≤ b + 1 → ∀ la lb lc ld : ℚ,
      (genBits lat lng n la lb lc ld true =
        interleave (_coordinate2bits lng lc ld a) (_coordinate2bits lat la lb b)) ∧
      (genBits lat lng n la lb lc ld false =
        interleave (_coordinate2bits lat la lb a) (_coordinate2bits lng lc ld b)) := by
  intro n
  induction n with
  | zero =>
    intro a b hab hba hab1 la lb lc ld
    have ha : a = 0 := by omega
    have hb : b = 0 := by omega
    subst ha hb
    have h0 : interleave [] [] = ([] : List Bool) := by simp [interleave]
    exact ⟨h0.symm, h0.symm⟩
  | succ n ih =>
    intro a b hab hba hab1 la lb lc ld
    have ha : ∃ a', a = a' + 1 := ⟨a - 1, by omega⟩
    rcases ha with ⟨a', rfl⟩
    constructor
    · rw [genBits_succ, _coordinate2bits_succ]
      by_cases hc : lng > (lc + ld) / 2
      · rw [if_pos hc,
          show estep lat lng la lb lc ld true = (true, la, lb, (lc + ld) / 2, ld) by
            simp [estep, hc]]
        simp only
        rw [interleave]
        exact congrArg (true :: ·)
          ((ih b a' (by omega) (by omega) (by omega) la lb ((lc + ld) / 2) ld).2)
      · rw [if_neg hc,
          show estep lat lng la lb lc ld true = (false, la, lb, lc, (lc + ld) / 2) by
            simp [estep, hc]]
        simp only
        rw [interleave]
        exact congrArg (false :: ·)
          ((ih b a' (by omega) (by omega) (by omega) la lb lc ((lc + ld) / 2)).2)
    · rw [genBits_succ, _coordinate2bits_succ]
      by_cases hc : lat > (la + lb) / 2
      · rw [if_pos hc,
          show estep lat lng la lb lc ld false = (true, (la + lb) / 2, lb, lc, ld) by
            simp [estep, hc]]
        simp only
        rw [interleave]
        exact congrArg (true :: ·)
          ((ih b a' (by omega) (by omega) (by omega) ((la + lb) / 2) lb lc ld).1)
      · rw [if_neg hc,
          show estep lat lng la lb lc ld false = (false, la, (la + lb) / 2, lc, ld) by
            simp [estep, hc]]
        simp only
        rw [interleave]
        exact congrArg (false :: ·)
          ((ih b a' (by omega) (by omega) (by omega) la ((la + lb) / 2) lc ld).1)

/-- The slow string-based encode and the fast bit-operation encode agree for
every pair of coordinate values and every requested length. -/
theorem encode_agrees : ∀ (lat lng : ℚ) (L : ℕ), _encode lat lng L = encode lat lng L := by
  intro lat lng L
  rw [encode_eq_packFrom, _encode]
  have hsplit := (genBits_interleave lat lng (5 * L) ((L * 5 + 1) / 2) (L * 5 / 2)
    (by omega) (by omega) (by omega) (-90) 90 (-180) 180).1
  congr 1
  rw [← hsplit]
  exact (packFrom_eq_pack L _ (by rw [genBits_length])).symm

/-! ### Packing and unpacking are mutually inverse; interleaving splits back -/

theorem bits2num_foldl_bound : ∀ (bs : List Bool) (acc : ℕ),
    bs.foldl (fun n b => 2 * n + b.toNat) acc < (acc + 1) * 2 ^ bs.length := by
  intro bs
  induction bs with
  | nil => intro acc; simp
  | cons b rest ih =>
    intro acc
    rw [List.foldl_cons]
    have h := ih (2 * acc + b.toNat)
    have hb : b.toNat ≤ 1 := Bool.toNat_le b
    calc List.foldl (fun n b => 2 * n + b.toNat) (2 * acc + b.toNat) rest
        < (2 * acc + b.toNat + 1) * 2 ^ rest.length := h
      _ ≤ (acc + 1) * 2 ^ (b :: rest).length := by
          rw [List.length_cons, pow_succ]
          nlinarith [pow_pos (show 0 < 2 by norm_num) rest.length]

theorem bits2num_lt (bs : List Bool) : bits2num bs < 2 ^ bs.length := by
  have := bits2num_foldl_bound bs 0
  simpa [bits2num] using this

theorem char5_roundtrip : ∀ b0 b1 b2 b3 b4 : Bool,
    _char2bits (BASE32.getD (bits2num [b0, b1, b2, b3, b4]) '?') =
      some [b0, b1, b2, b3, b4] := by
  decide

theorem mapOpt_map {f : β → Option α} {h : α → β} : ∀ {l : List α},
    (∀ x ∈ l, f (h x) = some x) → mapOpt f (l.map h) = some l := by
  intro l
  induction l with
  | nil => intro _; rfl
  | cons a as ih =>
    intro hp
    rw [List.map_cons, mapOpt_cons, hp a (List.mem_cons_self a as),
      ih (fun x hx => hp x (List.mem_cons_of_mem a hx))]
    rfl

/-- For a bit string of length a multiple of five, grouping yields groups of
exactly five bits whose concatenation restores the string, one group per
five bits. -/
theorem group5_facts : ∀ (k : ℕ) (bs : List Bool), bs.length = 5 * k →
    (∀ g ∈ group5 bs, g.length = 5) ∧ (group5 bs).flatten = bs ∧
      (group5 bs).length = k := by
  intro k
  induction k with
  | zero =>
    intro bs h
    have : bs = [] := List.length_eq_zero.mp (by omega)
    subst this
    refine ⟨?_, ?_, ?_⟩ <;> simp [group5]
  | succ k ih =>
    intro bs h
    match bs, h with
    | b0 :: b1 :: b2 :: b3 :: b4 :: rest, h =>
      have hrest : rest.length = 5 * k := by
        simp only [List.length_cons] at h
        omega
      rcases ih rest hrest with ⟨hg, hfl, hlen⟩
      rw [group5_cons5]
      refine ⟨?_, ?_, ?_⟩
      · intro g hgmem
        rcases List.mem_cons.mp hgmem with hgmem | hgmem
        · subst hgmem; rfl
        · exact hg g hgmem
      · rw [List.flatten_cons, hfl]
        rfl
      · rw [List.length_cons, hlen]

/-- Unpacking the packed representation of a bit string of length a multiple
of five restores the bit string. -/
theorem geohash2bits_pack {k : ℕ} {bs : List Bool} (h : bs.length = 5 * k) :
    _geohash2bits (String.mk (pack bs)) = some bs := by
  rcases group5_facts k bs h with ⟨hg, hfl, _⟩
  rw [_geohash2bits]
  have hdata : (String.mk (pack bs)).data = pack bs := rfl
  rw [hdata, pack]
  rw [@mapOpt_map _ _ _char2bits (fun g => BASE32.getD (bits2num g) '?') (group5 bs)]
  · rw [Option.map_some', hfl]
  · intro g hgmem
    have h5 := hg g hgmem
    match g, h5 with
    | [b0, b1, b2, b3, b4], _ => exact char5_roundtrip b0 b1 b2 b3 b4

theorem interleave_cons (x : Bool) (xs ys : List Bool) :
    interleave (x :: xs) ys = x :: interleave ys xs := by
  rw [interleave]

theorem interleave_nil (ys : List Bool) : interleave [] ys = ys := by
  rw [interleave]

/-- Splitting an interleaved stream by parity restores the two input
streams, when the first stream holds the extra element of an odd split. -/
theorem evens_odds_interleave : ∀ (ys xs : List Bool),
    ys.length ≤ xs.length → xs.length ≤ ys.length + 1 →
    evens (interleave xs ys) = xs ∧ odds (interleave xs ys) = ys := by
  intro ys
  induction ys with
  | nil =>
    intro xs h1 h2
    match xs, h2 with
    | [], _ => simp [interleave_nil]
    | [x], _ =>
      rw [interleave_cons, interleave_nil]
      simp
  | cons y ys' ih =>
    intro xs h1 h2
    match xs, h1 with
    | x :: xs', h1 =>
      rw [interleave_cons, interleave_cons]
      simp only [evens_cons, odds_cons, evens_cons, odds_cons]
      have hlen1 : ys'.length ≤ xs'.length := by
        simp only [List.length_cons] at h1 h2
        omega
      have hlen2 : xs'.length ≤ ys'.length + 1 := by
        simp only [List.length_cons] at h1 h2
        omega
      rcases ih xs' hlen1 hlen2 with ⟨he, ho⟩
      rw [he, ho]
      exact ⟨rfl, rfl⟩

theorem interleave_length_aux : ∀ (n : ℕ) (xs ys : List Bool),
    xs.length + ys.length = n → (interleave xs ys).length = n := by
  intro n
  induction n with
  | zero =>
    intro xs ys h
    have hx : xs = [] := List.length_eq_zero.mp (by omega)
    have hy : ys = [] := List.length_eq_zero.mp (by omega)
    subst hx hy
    rw [interleave_nil]
    rfl
  | succ n ihn =>
    intro xs ys h
    match xs with
    | [] =>
      rw [interleave_nil]
      simpa using h
    | x :: xs' =>
      rw [interleave_cons, List.length_cons,
        ihn ys xs' (by simp only [List.length_cons] at h; omega)]

theorem interleave_length (xs ys : List Bool) :
    (interleave xs ys).length = xs.length + ys.length :=
  interleave_length_aux _ xs ys rfl

/-! ### Evaluation of the precision formatter -/

/-- Below 1 (and at 1), truncation toward zero of -log10 agrees with its
floor, which is the negated ceiling of log10. -/
theorem truncNegLog10_eq_floor {y : ℚ} (h : y ≤ 1) :
    truncNegLog10 y = -(Int.clog 10 y) := by
  rw [truncNegLog10]
  by_cases h1 : 1 ≤ y
  · have hy : y = 1 := le_antisymm h h1
    subst hy
    rw [if_pos le_rfl, Int.log_one_right, Int.clog_one_right]
  · rw [if_neg h1, Int.log_inv]

theorem truncNegLog10_of_lt10 {y : ℚ} (h1 : 1 < y) (h2 : y < 10) :
    truncNegLog10 y = 0 := by
  rw [truncNegLog10, if_pos h1.le, Int.log_of_one_le_right _ h1.le]
  have hfl : ⌊y⌋₊ < 10 := by
    rw [Nat.floor_lt (by linarith)]
    exact_mod_cast h2
  have : Nat.log 10 ⌊y⌋₊ = 0 := Nat.log_eq_zero_iff.mpr (Or.inl hfl)
  rw [this]
  rfl

theorem gp_of_le_half {err : ℚ} (h : err ≤ 1/2) :
    _get_precision err = precision_spec_floor err := by
  rw [_get_precision, precision_spec_floor, truncNegLog10_eq_floor (by linarith)]

theorem gp_of_mid {err : ℚ} (h1 : 1/2 < err) (h2 : err < 5) :
    _get_precision err = 1 := by
  rw [_get_precision, truncNegLog10_of_lt10 (by linarith) (by linarith)]
  rfl

theorem gp_of_ge5 {err : ℚ} (h : 5 ≤ err) : _get_precision err = 0 := by
  have hpos : (0:ℚ) < 2 * err := by linarith
  have hk : 1 ≤ Int.log 10 (2 * err) := by
    rw [← Int.zpow_le_iff_le_log (by norm_num) hpos]
    rw [zpow_one]
    push_cast
    linarith
  rw [_get_precision, truncNegLog10, if_pos (by linarith)]
  exact max_eq_left (by omega)

theorem intLog10_two : Int.log 10 (2:ℚ) = 0 := by
  rw [Int.log_of_one_le_right _ (by norm_num)]
  rw [show ⌊(2:ℚ)⌋₊ = 2 from by norm_num]
  rw [Nat.log_eq_zero_iff.mpr (Or.inl (by norm_num))]
  rfl

theorem natClog10_two : Nat.clog 10 2 = 1 := by
  have h1 : Nat.clog 10 2 ≤ 1 := (Nat.le_pow_iff_clog_le (by norm_num)).mp (by norm_num)
  have h2 : ¬ Nat.clog 10 2 ≤ 0 := fun h => by
    have := (@Nat.le_pow_iff_clog_le 10 (by norm_num) 2 0).mpr h
    norm_num at this
  omega

theorem intClog10_two : Int.clog 10 (2:ℚ) = 1 := by
  rw [show (2:ℚ) = ((2:ℕ):ℚ) from by norm_num, Int.clog_natCast, natClog10_two]
  rfl

theorem intLog_4096_45 : Int.log 10 (4096/45 : ℚ) = 1 := by
  rw [Int.log_of_one_le_right _ (by norm_num)]
  rw [show ⌊(4096/45 : ℚ)⌋₊ = 91 from by rw [Nat.floor_eq_iff (by norm_num)]; norm_num]
  rw [@Nat.log_eq_of_pow_le_of_lt_pow 10 1 91 (by norm_num) (by norm_num)]
  rfl

/-- Precision used by decode for a geohash of length 6: the longitude error
is 45/8192 and the derived digit count is 2. -/
theorem gp_lng6 : _get_precision (45/8192 : ℚ) = 2 := by
  have h : (2 * (45/8192 : ℚ)) = 45/4096 := by norm_num
  rw [_get_precision, h, truncNegLog10, if_neg (by norm_num),
    show ((45:ℚ)/4096)⁻¹ = 4096/45 from by norm_num, intLog_4096_45]
  rfl

/-! ### Concrete evaluations of decode and the decimal formatter -/

theorem dve_empty : decode_val_err "" = some (0, 0, 90, 180) := by
  simp [decode_val_err, mapOpt]

theorem dve_zero : decode_val_err "0" = some (-135/2, -315/2, 45/2, 45/2) := by
  have h0 : CHARMAP '0' = some 0 := by decide
  simp [decode_val_err, mapOpt, h0, dchar_step, masks, dmask_step]
  norm_num

theorem dve_000004 :
    decode_val_err "000004" =
      some (-1474335/16384, -1474515/8192, 45/16384, 45/8192) := by
  have h0 : CHARMAP '0' = some 0 := by decide
  have h4 : CHARMAP '4' = some 4 := by decide
  have t16 : ¬ ((4:ℕ) &&& 16 ≠ 0) := by decide
  have t8 : ¬ ((4:ℕ) &&& 8 ≠ 0) := by decide
  have t4 : ((4:ℕ) &&& 4 ≠ 0) := by decide
  have t2 : ¬ ((4:ℕ) &&& 2 ≠ 0) := by decide
  have t1 : ¬ ((4:ℕ) &&& 1 ≠ 0) := by decide
  simp [decode_val_err, mapOpt, h0, h4, dchar_step, masks, dmask_step,
    t16, t8, t4, t2, t1]
  norm_num

theorem ff_zero : formatFixed 0 (0:ℚ) = "0" := by
  simp [formatFixed, roundHalfEven, natToString]

theorem ff_lat6 : formatFixed 2 (-1474335/16384 : ℚ) = "-89.99" := by
  have hx : (-1474335/16384 : ℚ) * 10^2 = -36858375/4096 := by norm_num
  have hf : ⌊(-36858375/4096 : ℚ)⌋ = -8999 := by rw [Int.floor_eq_iff]; norm_num
  have hr : roundHalfEven (-36858375/4096 : ℚ) = -8999 := by norm_num [roundHalfEven, hf]
  rw [formatFixed, hx, hr]
  norm_num [natToString, natDigitsAux, digitChar, padLeftZeros]
  decide

theorem ff_lng6 : formatFixed 2 (-1474515/8192 : ℚ) = "-179.99" := by
  have hx : (-1474515/8192 : ℚ) * 10^2 = -36862875/2048 := by norm_num
  have hf : ⌊(-36862875/2048 : ℚ)⌋ = -18000 := by rw [Int.floor_eq_iff]; norm_num
  have hr : roundHalfEven (-36862875/2048 : ℚ) = -17999 := by norm_num [roundHalfEven, hf]
  rw [formatFixed, hx, hr]
  norm_num [natToString, natDigitsAux, digitChar, padLeftZeros]
  decide

theorem decode_empty : decode "" = some ("0", "0") := by
  rw [decode, dve_empty, Option.map_some']
  simp only [gp_of_ge5 (by norm_num : (5:ℚ) ≤ 180), Int.toNat_zero, ff_zero]

theorem decode_000004 : decode "000004" = some ("-89.99", "-179.99") := by
  rw [decode, dve_000004, Option.map_some']
  simp only [gp_lng6, show (2:ℤ).toNat = 2 from rfl, ff_lat6, ff_lng6]

/-! ### The claims -/

/-- C1: for every latitude in [-90, 90], longitude in [-180, 180] and length
L at least 1, decoding the string produced by encode yields per-axis
(value, error) pairs with |lat - lat_value| bounded by lat_error and
|lng - lng_value| bounded by lng_error. -/
theorem claim_C1_roundtrip :
    ∀ (lat lng : ℚ) (L : ℕ), 1 ≤ L → -90 ≤ lat → lat ≤ 90 → -180 ≤ lng → lng ≤ 180 →
    ∃ t : ℚ × ℚ × ℚ × ℚ, decode_val_err (encode lat lng L) = some t ∧
      |lat - t.1| ≤ t.2.2.1 ∧ |lng - t.2.1| ≤ t.2.2.2 := by
  intro lat lng L hL h1 h2 h3 h4
  have hlatb := _coordinate2bits_length lat (L * 5 / 2) (-90) 90
  have hlngb := _coordinate2bits_length lng ((L * 5 + 1) / 2) (-180) 180
  set latb := _coordinate2bits lat (-90) 90 (L * 5 / 2) with hlatbdef
  set lngb := _coordinate2bits lng (-180) 180 ((L * 5 + 1) / 2) with hlngbdef
  have henc : encode lat lng L = String.mk (pack (interleave lngb latb)) := by
    rw [← encode_agrees, _encode]
  have hlen : (interleave lngb latb).length = 5 * L := by
    rw [interleave_length, hlatb, hlngb]
    omega
  have hbits := geohash2bits_pack hlen
  have hsplit := evens_odds_interleave latb lngb
    (by rw [hlatb, hlngb]; omega) (by rw [hlatb, hlngb]; omega)
  have hdec : decode_val_err (encode lat lng L) = some
      ((_bits2coordinate (odds (interleave lngb latb)) (-90) 90).1,
       (_bits2coordinate (evens (interleave lngb latb)) (-180) 180).1,
       (_bits2coordinate (odds (interleave lngb latb)) (-90) 90).2,
       (_bits2coordinate (evens (interleave lngb latb)) (-180) 180).2) := by
    rw [henc, ← decode_val_err_agrees, _decode_val_err, hbits, Option.map_some']
  rw [hsplit.1, hsplit.2] at hdec
  refine ⟨_, hdec, ?_, ?_⟩
  · dsimp only
    simp only [_bits2coordinate]
    have hp := nrun_coordinate2bits lat (L * 5 / 2) (-90) 90 h1 h2
    rw [abs_sub_le_iff]
    constructor <;> linarith [hp.1, hp.2]
  · dsimp only
    simp only [_bits2coordinate]
    have hp := nrun_coordinate2bits lng ((L * 5 + 1) / 2) (-180) 180 h3 h4
    rw [abs_sub_le_iff]
    constructor <;> linarith [hp.1, hp.2]

/-- Witness for C1 at latitude 42.6, longitude -5.6, length 5. -/
theorem claim_C1_witness :
    ∃ t : ℚ × ℚ × ℚ × ℚ, decode_val_err (encode (213/5) (-28/5) 5) = some t ∧
      |(213/5 : ℚ) - t.1| ≤ t.2.2.1 ∧ |(-28/5 : ℚ) - t.2.1| ≤ t.2.2.2 :=
  claim_C1_roundtrip (213/5) (-28/5) 5 (by norm_num) (by norm_num) (by norm_num)
    (by norm_num) (by norm_num)

/-- C2: the slow string-based path and the fast bit-operation path perform
identical work: the two decoders return the same tuple on every string and
the two encoders return the same string for every input. -/
theorem claim_C2_dual_paths :
    (∀ s : String, _decode_val_err s = decode_val_err s) ∧
    (∀ (lat lng : ℚ) (L : ℕ), _encode lat lng L = encode lat lng L) :=
  ⟨decode_val_err_agrees, encode_agrees⟩

/-- C3, counterexample to the claim as stated: at error 1 the formatter of
the source returns 1 while the formula of the spec, with a genuine floor of
-log10(2 * error), gives 0; the source truncates toward zero (Python int),
which differs from the floor on the negative values taken for error in
(1/2, 5). -/
theorem claim_C3_counterexample :
    _get_precision 1 = 1 ∧ precision_spec_floor 1 = 0 := by
  constructor
  · rw [_get_precision, show (2 * (1:ℚ)) = 2 from by norm_num, truncNegLog10,
      if_pos (by norm_num), intLog10_two]
    rfl
  · rw [precision_spec_floor, show (2 * (1:ℚ)) = 2 from by norm_num, intClog10_two]
    rfl

/-- C3, amended: for error at most 1/2 the truncation agrees with the floor
and the formatter returns exactly max(0, floor(-log10(2 error)) + 1); for
error in (1/2, 5) it returns 1 (the floor formula would give 0 on the
non-integer part of that range); for error at least 5 it returns 0. -/
theorem claim_C3_amended : ∀ err : ℚ, 0 < err →
    (err ≤ 1/2 → _get_precision err = precision_spec_floor err) ∧
    (1/2 < err → err < 5 → _get_precision err = 1) ∧
    (5 ≤ err → _get_precision err = 0) := by
  intro err hpos
  exact ⟨fun h => gp_of_le_half h, fun h1 h2 => gp_of_mid h1 h2, fun h => gp_of_ge5 h⟩

/-- Witness for C3 at error 1/4. -/
theorem claim_C3_witness :
    0 < (1/4 : ℚ) ∧ _get_precision (1/4) = precision_spec_floor (1/4) :=
  ⟨by norm_num, (claim_C3_amended (1/4) (by norm_num)).1 (by norm_num)⟩

/-- C4, the code bug at the failing input "000004": the decoded latitude
string "-89.99" parses to -8999/100, which lies strictly below
lat_value - lat_error, outside the interval the precision bound law and the
docstring of _get_precision promise; the shared precision is derived from
the longitude error alone, which is twice the latitude error here. -/
theorem claim_C4_bug :
    decode "000004" = some ("-89.99", "-179.99") ∧
    decode_val_err "000004" =
      some (-1474335/16384, -1474515/8192, 45/16384, 45/8192) ∧
    (-8999/100 : ℚ) < -1474335/16384 - 45/16384 :=
  ⟨decode_000004, dve_000004, by norm_num⟩

/-- C5: a string containing any character outside the 32-symbol alphabet
fails both decoders with no partial result, modelled as the value none. -/
theorem claim_C5_invalid_symbol : ∀ s : String, (∃ c ∈ s.data, c ∉ BASE32) →
    decode_val_err s = none ∧ decode s = none := by
  intro s hex
  rcases hex with ⟨c, hc, hnc⟩
  have h1 : mapOpt CHARMAP s.data = none := mapOpt_eq_none_of_mem hc (CHARMAP_eq_none hnc)
  have h2 : decode_val_err s = none := by rw [decode_val_err, h1]; rfl
  exact ⟨h2, by rw [decode, h2]; rfl⟩

/-- Witness for C5 at the string "ezsa2", which contains the letter a. -/
theorem claim_C5_witness :
    (∃ c ∈ "ezsa2".data, c ∉ BASE32) ∧
      decode_val_err "ezsa2" = none ∧ decode "ezsa2" = none :=
  ⟨by decide, claim_C5_invalid_symbol "ezsa2" (by decide)⟩

/-- C6, counterexample to the claim as stated: decoding the empty string
yields the errors 90 for latitude and 180 for longitude (the full half
widths of the starting intervals), not 45 and 90. -/
theorem claim_C6_counterexample :
    decode_val_err "" = some (0, 0, 90, 180) ∧
      decode_val_err "" ≠ some (0, 0, 45, 90) := by
  refine ⟨dve_empty, ?_⟩
  rw [dve_empty]
  norm_num [Prod.ext_iff]

/-- C6, amended: decode of the empty string returns the strings "0" and "0",
with errors 90 for latitude and 180 for longitude; the numeric decode of an
empty bit sequence is the interval midpoint with the full half width,
without any iteration. -/
theorem claim_C6_amended :
    decode "" = some ("0", "0") ∧ decode_val_err "" = some (0, 0, 90, 180) ∧
    ∀ lo hi : ℚ, _bits2coordinate [] lo hi = ((lo + hi) / 2, (hi - lo) / 2) :=
  ⟨decode_empty, dve_empty, fun lo hi => rfl⟩

/-- C7: the fast encode is the packing of the interleaving, longitude first,
of a longitude stream of exactly ceil(5 L / 2) bisection steps and a
latitude stream of exactly floor(5 L / 2) bisection steps, so longitude
receives the extra bit whenever 5 L is odd. -/
theorem claim_C7_bit_split : ∀ (lat lng : ℚ) (L : ℕ),
    encode lat lng L = String.mk (pack (interleave
      (_coordinate2bits lng (-180) 180 ((5 * L + 1) / 2))
      (_coordinate2bits lat (-90) 90 (5 * L / 2)))) ∧
    (_coordinate2bits lng (-180) 180 ((5 * L + 1) / 2)).length = (5 * L + 1) / 2 ∧
    (_coordinate2bits lat (-90) 90 (5 * L / 2)).length = 5 * L / 2 := by
  intro lat lng L
  refine ⟨?_, _coordinate2bits_length lng ((5 * L + 1) / 2) (-180) 180,
    _coordinate2bits_length lat (5 * L / 2) (-90) 90⟩
  rw [← encode_agrees, _encode, Nat.mul_comm L 5]

/-- C8: for every successfully decoded geohash string the longitude error
equals the latitude error or exactly twice the latitude error. -/
theorem claim_C8_error_ratio : ∀ (s : String) (t : ℚ × ℚ × ℚ × ℚ),
    decode_val_err s = some t → t.2.2.2 = t.2.2.1 ∨ t.2.2.2 = 2 * t.2.2.1 := by
  intro s t h
  rw [← decode_val_err_agrees, _decode_val_err] at h
  cases hb : _geohash2bits s with
  | none => rw [hb] at h; cases h
  | some bits =>
    rw [hb, Option.map_some'] at h
    replace h := Option.some.inj h
    subst h
    simp only [_bits2coordinate]
    have hw1 := nrun_width (odds bits) (-90) 90
    have hw2 := nrun_width (evens bits) (-180) 180
    have hlen := length_evens_odds bits
    rcases Nat.even_or_odd bits.length with ⟨m, hm⟩ | ⟨m, hm⟩
    · right
      have ho : (odds bits).length = m := by omega
      have he : (evens bits).length = m := by omega
      rw [hw1, hw2, ho, he]
      ring
    · left
      have ho : (odds bits).length = m := by omega
      have he : (evens bits).length = m + 1 := by omega
      rw [hw1, hw2, ho, he, pow_succ]
      have h2m : (2:ℚ)^m ≠ 0 := pow_ne_zero m (by norm_num)
      field_simp
      ring

/-- Witness for C8 at the string "0": both errors are 45/2. -/
theorem claim_C8_witness :
    decode_val_err "0" = some (-135/2, -315/2, 45/2, 45/2) ∧
    ((45:ℚ)/2 = 45/2 ∨ (45:ℚ)/2 = 2 * (45/2)) :=
  ⟨dve_zero, claim_C8_error_ratio "0" (-135/2, -315/2, 45/2, 45/2) dve_zero⟩

/-- C9: in the encode direction, a value equal to the current midpoint emits
bit 0 and keeps the lower half (the upper bound becomes the midpoint), and
bit 1 is emitted only for a value strictly greater than the midpoint; the
last conjunct states the same tie break for the loop body of the fast
encode on the longitude axis. -/
theorem claim_C9_tie_break : ∀ (v lo hi : ℚ) (n : ℕ),
    (v = (lo + hi) / 2 →
      _coordinate2bits v lo hi (n + 1) =
        false :: _coordinate2bits v lo ((lo + hi) / 2) n) ∧
    (∀ rest : List Bool,
      _coordinate2bits v lo hi (n + 1) = true :: rest → (lo + hi) / 2 < v) ∧
    (∀ lat la lb : ℚ, v = (lo + hi) / 2 →
      estep lat v la lb lo hi true = (false, la, lb, lo, (lo + hi) / 2)) := by
  intro v lo hi n
  refine ⟨?_, ?_, ?_⟩
  · intro hv
    rw [_coordinate2bits_succ, if_neg (by rw [hv]; exact lt_irrefl _)]
  · intro rest hrest
    by_cases h : v > (lo + hi) / 2
    · exact h
    · rw [_coordinate2bits_succ, if_neg h] at hrest
      simp at hrest
  · intro lat la lb hv
    simp only [estep, if_true]
    rw [if_neg (by rw [hv]; exact lt_irrefl _)]

/-- Witness for C9 at value 0, the midpoint of both starting intervals. -/
theorem claim_C9_witness :
    _coordinate2bits 0 (-90) 90 1 =
      false :: _coordinate2bits 0 (-90) ((-90 + 90) / 2) 0 ∧
    estep 0 0 (-180) 180 (-90) 90 true = (false, -180, 180, -90, (-90 + 90) / 2) :=
  ⟨(claim_C9_tie_break 0 (-90) 90 0).1 (by norm_num),
   (claim_C9_tie_break 0 (-90) 90 0).2.2 0 (-180) 180 (by norm_num)⟩

/-- C10: for every rational latitude and longitude, in range or not, and
every length, encode returns a string of exactly that many characters, each
a symbol of the 32-character alphabet (the embedding is total, so the loop
terminates by construction). -/
theorem claim_C10_encode_total : ∀ (lat lng : ℚ) (L : ℕ),
    (encode lat lng L).length = L ∧ ∀ c ∈ (encode lat lng L).data, c ∈ BASE32 := by
  intro lat lng L
  have hbits : (genBits lat lng (5 * L) (-90) 90 (-180) 180 true).length = 5 * L :=
    genBits_length lat lng (5 * L) (-90) 90 (-180) 180 true
  have henc : encode lat lng L =
      String.mk (pack (genBits lat lng (5 * L) (-90) 90 (-180) 180 true)) := by
    rw [encode_eq_packFrom, packFrom_eq_pack L _ hbits]
  rcases group5_facts L _ hbits with ⟨hg, _, hcount⟩
  constructor
  · rw [henc, String.length_mk, pack, List.length_map, hcount]
  · intro c hc
    rw [henc] at hc
    replace hc : c ∈ pack (genBits lat lng (5 * L) (-90) 90 (-180) 180 true) := hc
    rw [pack, List.mem_map] at hc
    rcases hc with ⟨g, hgmem, rfl⟩
    have h5 := hg g hgmem
    have hlt : bits2num g < BASE32.length := by
      have := bits2num_lt g
      rw [h5] at this
      simpa [BASE32] using this
    rw [List.getD_eq_getElem BASE32 '?' hlt]
    exact List.getElem_mem hlt

end Geohash
